import Mathlib

/-!
Verification of the statistical core of `auxiliar_functions.py`:
Holm step-down p-value adjustment, Dunn's post-hoc test with tie
correction, and compact letter display (CLD) assignment.

Modelling choices (shallow embedding):
* p-values, observations and group means are rationals (`ℚ`), modelling
  exact real arithmetic on Python floats;
* group identifiers are rationals, modelling the numeric identifiers the
  code requires (pair keys are canonicalised with `sorted(..., key=float)`,
  so identifiers must be numerically ordered);
* dictionaries are association lists; `dict.get(k, d)` is `find?` with a
  default; dictionary insertion `d[k] = v` overwrites an existing key;
* `scipy.stats.norm.sf` and `np.sqrt` are external library functions, so
  `dunn_posthoc` takes them as explicit functional parameters `sf` and
  `sqrtF`; theorems assume only the properties actually used (`sf 0 = 1/2`);
* letters are modelled by their character codes (`ℕ`): the code forms
  letters as `chr(ord('a') + n)`, an injective map, so letter `'a'` is `97`,
  `'b'` is `98`, and a letter string is a `List ℕ`;
* `raise` is modelled with `Except`: `np.concatenate([])` raises when the
  groups dictionary is empty, and an unsupported adjustment method raises
  `ValueError` (`invalidMethod`).
-/

/-- Clip a value to the interval [0, 1], as `np.clip(v, 0, 1)` does:
first raise to the lower bound, then cut at the upper bound. -/
def clip01 (v : ℚ) : ℚ := min 1 (max 0 v)

/-- Stable insertion (ascending by the second component) used to model
`np.argsort` on the list of (original index, p-value) pairs. -/
def insertAsc (e : ℕ × ℚ) : List (ℕ × ℚ) → List (ℕ × ℚ)
  | [] => [e]
  | f :: t => if e.2 < f.2 then e :: f :: t else f :: insertAsc e t

/-- Stable ascending sort by the second component. -/
def sortAsc : List (ℕ × ℚ) → List (ℕ × ℚ)
  | [] => []
  | e :: t => insertAsc e (sortAsc t)

/-- `np.argsort pvals`: indices of the p-values in ascending p-value order.
`argsort` uses an unstable sort, but the Holm output is invariant under the
ordering of tied entries, so a stable sort is a faithful model. -/
def argsortIdx (pvals : List ℚ) : List ℕ :=
  (sortAsc pvals.enum).map Prod.fst

/-- Running maximum, as `np.maximum.accumulate`: element `i` of the output
is the maximum of the first `i + 1` input elements.  Recursive form,
carrying the maximum seen so far. -/
def maxAccumFrom (m : ℚ) : List ℚ → List ℚ
  | [] => []
  | a :: t => max m a :: maxAccumFrom (max m a) t

/-- `np.maximum.accumulate` on a whole list. -/
def maxAccumulate : List ℚ → List ℚ
  | [] => []
  | a :: t => a :: maxAccumFrom a t

/-- Scatter sorted values back to original positions: `out[order] = vals`,
i.e. position `order[i]` of the result holds `vals[i]`. -/
def scatterBack (m : ℕ) (order : List ℕ) (vals : List ℚ) : List ℚ :=
  (List.range m).map fun j =>
    (((order.zip vals).find? fun q => q.1 = j).map Prod.snd).getD 0

/-- `AuxFunctions.holm_adjust`: Holm step-down adjustment, returning
adjusted p-values in the original order.  Mirrors the source: argsort,
candidates `(m - i) * p` over the sorted order, `np.maximum.accumulate`,
`np.clip(_, 0, 1)`, then scatter back through the argsort order. -/
def holm_adjust (pvals : List ℚ) : List ℚ :=
  let m := pvals.length
  let order := argsortIdx pvals
  let ranked := order.map fun i => pvals.getD i 0
  let candidates := ranked.enum.map fun p => ((m - p.1 : ℕ) : ℚ) * p.2
  let adjusted := maxAccumulate candidates
  let adjusted := adjusted.map clip01
  scatterBack m order adjusted

/-- Maximum of a (prefix) list of rationals, 0 on the empty list. -/
def prefixMax : List ℚ → ℚ
  | [] => 0
  | [a] => a
  | a :: b :: t => max a (prefixMax (b :: t))

/-- Running maximum written as the spec describes it: the `i`-th output is
the maximum over the first `i + 1` candidates. -/
def runningMaxSpec (l : List ℚ) : List ℚ :=
  (List.range l.length).map fun i => prefixMax (l.take (i + 1))

/-- Clipping to [0, 1] as the spec words it. -/
def clipSpec (v : ℚ) : ℚ := if v < 0 then 0 else if v > 1 then 1 else v

/-- The Holm adjustment exactly as §4.1 of the spec words it: sort indices
by ascending p-value, candidate `(m - i) * p` for the `i`-th smallest,
running maximum over the sorted order, clip every value to [0, 1], scatter
back to the original order. -/
def holm_spec (pvals : List ℚ) : List ℚ :=
  let m := pvals.length
  let order := argsortIdx pvals
  let ranked := order.map fun i => pvals.getD i 0
  let candidates := ranked.enum.map fun p => ((m - p.1 : ℕ) : ℚ) * p.2
  let adjusted := (runningMaxSpec candidates).map clipSpec
  scatterBack m order adjusted

/-! ### Dunn's post-hoc test (`AuxFunctions.dunn_posthoc`) -/

/-- `tuple(sorted((a, b), key=float))`: the canonical (ascending) form of an
unordered pair key; `sorted` is stable, so an equal pair keeps its order. -/
def canonPair (a b : ℚ) : ℚ × ℚ := if b < a then (b, a) else (a, b)

/-- `scipy.stats.rankdata` with the default average method: the rank of an
element is the number of strictly smaller elements plus the average of the
positions its tie class occupies, i.e. `less + (ties + 1) / 2`. -/
def rankdata (x : List ℚ) : List ℚ :=
  x.map fun v => (x.countP fun w => decide (w < v) : ℚ) + ((x.count v : ℚ) + 1) / 2

/-- `np.sum(counts ** 3 - counts)` over the multiplicities of the distinct
pooled values (`np.unique(x, return_counts=True)`). -/
def tieTerm (x : List ℚ) : ℚ :=
  (x.dedup.map fun v => (x.count v : ℚ) ^ 3 - (x.count v : ℚ)).sum

/-- The tie correction factor of `dunn_posthoc`:
`1.0 - tie_term / (N**3 - N) if N > 1 else 1.0`. -/
def tieCorrection (x : List ℚ) : ℚ :=
  if 1 < x.length then 1 - tieTerm x / ((x.length : ℚ) ^ 3 - (x.length : ℚ)) else 1

/-- All pairs `(l[i], l[j])` with `i < j`, in the order of the double loop
`for i in range(k): for j in range(i+1, k)`. -/
def allPairs {α : Type} : List α → List (α × α)
  | [] => []
  | a :: t => t.map (fun b => (a, b)) ++ allPairs t

/-- Python dictionary assignment `d[k] = v`: overwrite the value in place if
the key exists, otherwise append the new entry. -/
def dictInsert (d : List ((ℚ × ℚ) × ℚ)) (k : ℚ × ℚ) (v : ℚ) : List ((ℚ × ℚ) × ℚ) :=
  if d.any (fun e => e.1 = k) then d.map (fun e => if e.1 = k then (k, v) else e)
  else d ++ [(k, v)]

/-- The exceptions `dunn_posthoc` can raise: `np.concatenate([])` fails when
the groups dictionary is empty, and an unsupported adjustment method raises
`ValueError("p_adjust must be 'holm' or 'bonferroni'")`. -/
inductive DunnErr : Type
  | emptyConcatenate : DunnErr
  | invalidMethod : DunnErr
deriving DecidableEq

/-- Pooled observations, concatenated in group-key order (`np.concatenate`). -/
def pooled (groups : List (ℚ × List ℚ)) : List ℚ :=
  (groups.map Prod.snd).flatten

/-- The originating group label of each pooled observation. -/
def pooledLabels (groups : List (ℚ × List ℚ)) : List ℚ :=
  (groups.map fun g => List.replicate g.2.length g.1).flatten

/-- `group_sizes[g] = np.sum(labels == g)`: the number of pooled
observations labelled with group `g`. -/
def dunnSizes (groups : List (ℚ × List ℚ)) (g : ℚ) : ℕ :=
  (pooledLabels groups).count g

/-- `rank_sums[g] = np.sum(r[labels == g])`: the sum of the ranks of the
observations labelled with group `g`. -/
def dunnRankSums (groups : List (ℚ × List ℚ)) (g : ℚ) : ℚ :=
  ((((pooledLabels groups).zip (rankdata (pooled groups))).filter
    fun e => decide (e.1 = g)).map Prod.snd).sum

/-- `var = (N * (N + 1) / 12.0) * tie_correction`. -/
def dunnVar (groups : List (ℚ × List ℚ)) : ℚ :=
  (((pooled groups).length : ℚ) * (((pooled groups).length : ℚ) + 1) / 12) *
    tieCorrection (pooled groups)

/-- The pairs the double loop of `dunn_posthoc` keeps: every `(i, j)` pair
of group keys with `i < j`, skipping pairs where either group is empty
(`if n1 == 0 or n2 == 0: continue`). -/
def dunnPairs (groups : List (ℚ × List ℚ)) : List (ℚ × ℚ) :=
  (allPairs (groups.map Prod.fst)).filter fun p =>
    !(decide (dunnSizes groups p.1 = 0) || decide (dunnSizes groups p.2 = 0))

/-- The raw two-sided p-values of the kept pairs, in loop order:
`z = (mean_r1 - mean_r2) / np.sqrt(var * (1/n1 + 1/n2))` and
`p = 2.0 * norm.sf(abs(z))`. -/
def dunnRawP (sf sqrtF : ℚ → ℚ) (groups : List (ℚ × List ℚ)) : List ℚ :=
  (dunnPairs groups).map fun p =>
    let z := (dunnRankSums groups p.1 / (dunnSizes groups p.1 : ℚ) -
        dunnRankSums groups p.2 / (dunnSizes groups p.2 : ℚ)) /
      sqrtF (dunnVar groups * (1 / (dunnSizes groups p.1 : ℚ) + 1 / (dunnSizes groups p.2 : ℚ)))
    2 * sf |z|

/-- The final dictionary of `dunn_posthoc`: each kept pair, canonicalised
by numeric sorting, mapped to its adjusted p-value, built by dictionary
assignment in loop order. -/
def dunnOut (pairs : List (ℚ × ℚ)) (adj : List ℚ) : List ((ℚ × ℚ) × ℚ) :=
  (pairs.zip adj).foldl (fun d e => dictInsert d (canonPair e.1.1 e.1.2) e.2) []

/-- `AuxFunctions.dunn_posthoc`.  `sf` models `scipy.stats.norm.sf` and
`sqrtF` models `np.sqrt`; both are external library functions, passed as
parameters of the embedding.  Mirrors the source: flatten the groups
(`np.concatenate` raises on an empty dictionary), rank the pooled data
with tie averaging, compute per-group sizes and rank sums, the
tie-corrected variance term, a z statistic and raw two-sided p-value for
each pair of non-empty groups, adjust the p-values by the requested method
(name lowercased; `np.clip(raw_p * len(raw_p), 0, 1)` for Bonferroni), and
key the results by the pair sorted in numeric order. -/
def dunn_posthoc (sf sqrtF : ℚ → ℚ) (groups : List (ℚ × List ℚ))
    (p_adjust : String) : Except DunnErr (List ((ℚ × ℚ) × ℚ)) :=
  if groups.isEmpty then .error .emptyConcatenate
  else if p_adjust.toLower = "holm" then
    .ok (dunnOut (dunnPairs groups) (holm_adjust (dunnRawP sf sqrtF groups)))
  else if p_adjust.toLower = "bonferroni" then
    .ok (dunnOut (dunnPairs groups)
      ((dunnRawP sf sqrtF groups).map fun p =>
        clip01 (p * ((dunnRawP sf sqrtF groups).length : ℚ))))
  else .error .invalidMethod

/-! ### Compact letter display (`AuxFunctions.cld_letters`) -/

/-- `pvals.get(tuple(sorted((g, h), key=float)), 1.0)`: look up the stored
p-value of a pair under its canonical key, defaulting to 1. -/
def lookupP (pvals : List ((ℚ × ℚ) × ℚ)) (g h : ℚ) : ℚ :=
  (((pvals.find? fun e => decide (e.1 = canonPair g h)).map Prod.snd)).getD 1

/-- The inner predicate `nonsig(g, h)` of `cld_letters`:
the pair is non-significant when its stored p-value is at least `alpha`. -/
def nonsigB (pvals : List ((ℚ × ℚ) × ℚ)) (alpha : ℚ) (g h : ℚ) : Bool :=
  decide (alpha ≤ lookupP pvals g h)

/-- State of the `cld_letters` main loop: the letter string of every group
(a list of character codes; letter `'a'` is code 97) and the list of
letters created so far. -/
structure CLD : Type where
  letters : ℚ → List ℕ
  letterList : List ℕ

/-- The inner loop `for li, L in enumerate(letter_list)`: group `g` joins
every letter `L` whose current members are all non-significant against `g`
(appending `L` to `g`'s string); returns the updated letter strings and the
`placed` flag. -/
def tryJoin (gs : List ℚ) (ns : ℚ → ℚ → Bool) (g : ℚ) :
    (ℚ → List ℕ) → List ℕ → ((ℚ → List ℕ) × Bool)
  | lt, [] => (lt, false)
  | lt, L :: rest =>
    let members := gs.filter fun h => decide (L ∈ lt h)
    if members.all fun h => ns g h then
      let lt' := fun h => if h = g then lt h ++ [L] else lt h
      ((tryJoin gs ns g lt' rest).1, true)
    else
      tryJoin gs ns g lt rest

/-- One iteration of the main loop of `cld_letters` (without the clean-up
pass): try to place `g` into every existing letter; if it joined none,
create the fresh letter `chr(ord('a') + len(letter_list))` for `g` alone. -/
def processGroup (gs : List ℚ) (ns : ℚ → ℚ → Bool) (st : CLD) (g : ℚ) : CLD :=
  let r := tryJoin gs ns g st.letters st.letterList
  if r.2 then { letters := r.1, letterList := st.letterList }
  else
    let newL := 97 + st.letterList.length
    { letters := fun h => if h = g then r.1 h ++ [newL] else r.1 h,
      letterList := st.letterList ++ [newL] }

/-- The clean-up pass at the end of each iteration: for every letter of
`g`, compute the other members and the non-significance condition, and
`continue` — the body performs no state change in either branch. -/
def cleanupPass (gs : List ℚ) (ns : ℚ → ℚ → Bool) (lt : ℚ → List ℕ) (g : ℚ) :
    ℚ → List ℕ :=
  (lt g).foldl
    (fun st L =>
      let members := gs.filter fun h => decide (h ≠ g) && decide (L ∈ st h)
      if ¬members.isEmpty ∧ (members.all fun h => ns g h) then st else st)
    lt

/-- One full iteration of the main loop of `cld_letters`, clean-up pass
included. -/
def processGroupFull (gs : List ℚ) (ns : ℚ → ℚ → Bool) (st : CLD) (g : ℚ) : CLD :=
  let st' := processGroup gs ns st g
  { letters := cleanupPass gs ns st'.letters g, letterList := st'.letterList }

/-- `group_means[g]` (groups are exactly the keys of `group_means`, so the
default is never used on the code's inputs). -/
def meansOf (means : List (ℚ × ℚ)) (g : ℚ) : ℚ :=
  ((means.find? fun e => decide (e.1 = g)).map Prod.snd).getD 0

/-- Stable insertion for the descending sort by group mean. -/
def insertDescMean (ms : ℚ → ℚ) (g : ℚ) : List ℚ → List ℚ
  | [] => [g]
  | h :: t => if ms h ≤ ms g then g :: h :: t else h :: insertDescMean ms g t

/-- `sorted(groups, key=lambda g: group_means[g], reverse=True)`: a stable
descending sort of the group identifiers by mean. -/
def sortGroupsDesc (ms : ℚ → ℚ) : List ℚ → List ℚ
  | [] => []
  | g :: t => insertDescMean ms g (sortGroupsDesc ms t)

/-- `AuxFunctions.cld_letters`: greedy compact-letter-display assignment.
Groups are processed in descending mean order; each group joins every
compatible existing letter, or receives a fresh letter; the (no-op)
clean-up pass closes each iteration.  The result maps each group (in
processing order, as the Python dict does) to its letter-code string. -/
def cld_letters (means : List (ℚ × ℚ)) (pvals : List ((ℚ × ℚ) × ℚ))
    (alpha : ℚ) : List (ℚ × List ℕ) :=
  let gs := sortGroupsDesc (meansOf means) (means.map Prod.fst)
  let ns := nonsigB pvals alpha
  let st := gs.foldl (processGroupFull gs ns) ⟨fun _ => [], []⟩
  gs.map fun g => (g, st.letters g)

/-- The plain greedy assignment: `cld_letters` with the clean-up loop
removed (the comparison point of the refinement claim). -/
def cld_letters_greedy (means : List (ℚ × ℚ)) (pvals : List ((ℚ × ℚ) × ℚ))
    (alpha : ℚ) : List (ℚ × List ℕ) :=
  let gs := sortGroupsDesc (meansOf means) (means.map Prod.fst)
  let ns := nonsigB pvals alpha
  let st := gs.foldl (processGroup gs ns) ⟨fun _ => [], []⟩
  gs.map fun g => (g, st.letters g)

/-- The letter string assigned to group `g` by a CLD result. -/
def lettersOf (res : List (ℚ × List ℕ)) (g : ℚ) : List ℕ :=
  ((res.find? fun e => decide (e.1 = g)).map Prod.snd).getD []

/-- The loop invariant of `cld_letters`: only listed groups carry letters,
every carried letter was created (is in `letter_list`), the created letters
are exactly the codes `97, 98, …` in creation order, and any two distinct
groups sharing a letter are pairwise non-significant. -/
def CLDInv (gs : List ℚ) (ns : ℚ → ℚ → Bool) (st : CLD) : Prop :=
  (∀ h, st.letters h ≠ [] → h ∈ gs) ∧
  (∀ h c, c ∈ st.letters h → c ∈ st.letterList) ∧
  (st.letterList = (List.range st.letterList.length).map fun i => 97 + i) ∧
  (∀ g h, g ≠ h → (∃ c, c ∈ st.letters g ∧ c ∈ st.letters h) → ns g h = true)

/-! ## Lemmas and theorems -/

theorem foldl_const_eq {α β : Type} (l : List β) (a : α) :
    List.foldl (fun s _ => s) a l = a := by
  induction l generalizing a with
  | nil => rfl
  | cons b t ih => rw [List.foldl_cons]; exact ih a

theorem cleanupPass_id (gs : List ℚ) (ns : ℚ → ℚ → Bool) (lt : ℚ → List ℕ) (g : ℚ) :
    cleanupPass gs ns lt g = lt := by
  unfold cleanupPass
  simp only [ite_self]
  exact foldl_const_eq _ _

theorem processGroupFull_eq_processGroup (gs : List ℚ) (ns : ℚ → ℚ → Bool)
    (st : CLD) (g : ℚ) : processGroupFull gs ns st g = processGroup gs ns st g := by
  simp only [processGroupFull, cleanupPass_id]

theorem cld_letters_eq_greedy (means : List (ℚ × ℚ)) (pvals : List ((ℚ × ℚ) × ℚ))
    (alpha : ℚ) : cld_letters means pvals alpha = cld_letters_greedy means pvals alpha := by
  have h : processGroupFull (sortGroupsDesc (meansOf means) (means.map Prod.fst))
      (nonsigB pvals alpha) = processGroup (sortGroupsDesc (meansOf means) (means.map Prod.fst))
      (nonsigB pvals alpha) :=
    funext fun st => funext fun g => processGroupFull_eq_processGroup _ _ st g
  simp only [cld_letters, cld_letters_greedy]
  rw [h]

/-- C10: the per-group clean-up pass at the end of each iteration of
`cld_letters` never modifies any letter assignment; for every input,
`cld_letters` returns exactly the plain greedy assignment with the
clean-up loop removed. -/
theorem cld_cleanup_pass_is_noop (means : List (ℚ × ℚ)) (pvals : List ((ℚ × ℚ) × ℚ))
    (alpha : ℚ) : cld_letters means pvals alpha = cld_letters_greedy means pvals alpha :=
  cld_letters_eq_greedy means pvals alpha

/-- C8: in `dunn_posthoc`, the tie correction factor is
`1 − Σ(t³ − t) / (N³ − N)` exactly when the pooled count `N` exceeds 1
(and the divisor `N³ − N` is then non-zero), is `1` when `N ≤ 1`, and is
exactly `1` on pooled data without ties. -/
theorem tieCorrection_correct (x : List ℚ) :
    (x.length ≤ 1 → tieCorrection x = 1) ∧
    (1 < x.length →
      ((x.length : ℚ) ^ 3 - (x.length : ℚ) ≠ 0 ∧
        tieCorrection x = 1 - tieTerm x / ((x.length : ℚ) ^ 3 - (x.length : ℚ)))) ∧
    (x.Nodup → tieCorrection x = 1) := by
  refine ⟨fun hle => ?_, fun hlt => ⟨?_, ?_⟩, fun hnd => ?_⟩
  · rw [tieCorrection, if_neg (by omega)]
  · have h2 : (2 : ℚ) ≤ (x.length : ℚ) := by exact_mod_cast hlt
    have hpos : (0 : ℚ) < (x.length : ℚ) * (((x.length : ℚ) - 1) * ((x.length : ℚ) + 1)) := by
      have a1 : (0 : ℚ) < (x.length : ℚ) := by linarith
      have a2 : (0 : ℚ) < (x.length : ℚ) - 1 := by linarith
      have a3 : (0 : ℚ) < (x.length : ℚ) + 1 := by linarith
      exact mul_pos a1 (mul_pos a2 a3)
    have hid : (x.length : ℚ) ^ 3 - (x.length : ℚ) =
        (x.length : ℚ) * (((x.length : ℚ) - 1) * ((x.length : ℚ) + 1)) := by ring
    rw [hid]
    exact ne_of_gt hpos
  · rw [tieCorrection, if_pos hlt]
  · have hterm : tieTerm x = 0 := by
      rw [tieTerm]
      refine List.sum_eq_zero fun v hv => ?_
      rcases List.mem_map.mp hv with ⟨w, hw, rfl⟩
      have h1 : x.count w = 1 :=
        List.count_eq_one_of_mem hnd (List.mem_dedup.mp hw)
      rw [h1]
      norm_num
    rw [tieCorrection, hterm]
    split
    · simp
    · rfl

theorem tieCorrection_correct_witness :
    (1 < ([1, 2] : List ℚ).length ∧
      ((([1, 2] : List ℚ).length : ℚ) ^ 3 - (([1, 2] : List ℚ).length : ℚ) ≠ 0 ∧
        tieCorrection [1, 2] =
          1 - tieTerm [1, 2] /
            ((([1, 2] : List ℚ).length : ℚ) ^ 3 - (([1, 2] : List ℚ).length : ℚ)))) ∧
    (([1, 2] : List ℚ).Nodup ∧ tieCorrection [1, 2] = 1) :=
  ⟨⟨by decide, (tieCorrection_correct [1, 2]).2.1 (by decide)⟩,
    ⟨by with_unfolding_all decide,
      (tieCorrection_correct [1, 2]).2.2 (by with_unfolding_all decide)⟩⟩

theorem prefixMax_cons (a : ℚ) (l : List ℚ) (h : l ≠ []) :
    prefixMax (a :: l) = max a (prefixMax l) := by
  cases l with
  | nil => exact absurd rfl h
  | cons b t => rfl

theorem runningMaxSpec_nil : runningMaxSpec [] = [] := rfl

theorem runningMaxSpec_cons (a : ℚ) (t : List ℚ) :
    runningMaxSpec (a :: t) = a :: (runningMaxSpec t).map (fun v => max a v) := by
  unfold runningMaxSpec
  rw [List.length_cons, List.range_succ_eq_map, List.map_cons, List.map_map, List.map_map]
  refine congrArg₂ _ rfl ?_
  refine List.map_congr_left fun i hi => ?_
  rw [List.mem_range] at hi
  show prefixMax ((a :: t).take (i + 1 + 1)) = max a (prefixMax (t.take (i + 1)))
  rw [List.take_succ_cons]
  refine prefixMax_cons a _ fun hnil => ?_
  rcases List.take_eq_nil_iff.mp hnil with h | h
  · exact absurd h (by omega)
  · subst h
    simp at hi

theorem maxAccumFrom_eq (m : ℚ) (l : List ℚ) :
    maxAccumFrom m l = (runningMaxSpec l).map (fun v => max m v) := by
  induction l generalizing m with
  | nil => rfl
  | cons a t ih =>
    rw [maxAccumFrom, ih (max m a), runningMaxSpec_cons, List.map_cons, List.map_map]
    refine congrArg₂ _ rfl ?_
    refine congrArg₂ _ ?_ rfl
    funext v
    show max (max m a) v = max m (max a v)
    rw [max_assoc]

theorem maxAccumulate_eq_runningMaxSpec (l : List ℚ) :
    maxAccumulate l = runningMaxSpec l := by
  cases l with
  | nil => rfl
  | cons a t =>
    rw [maxAccumulate, maxAccumFrom_eq, runningMaxSpec_cons]

theorem clip01_eq_clipSpec : clip01 = clipSpec := by
  funext v
  unfold clip01 clipSpec
  rcases lt_or_le v 0 with h0 | h0
  · rw [if_pos h0, max_eq_left (le_of_lt h0), min_eq_right (by linarith)]
  · rw [if_neg (not_lt.mpr h0), max_eq_right h0]
    rcases lt_or_le 1 v with h1 | h1
    · rw [if_pos h1, min_eq_left (le_of_lt h1)]
    · rw [if_neg (not_lt.mpr h1), min_eq_right h1]

/-- C2: `holm_adjust` computes exactly the algorithm the spec describes —
sort indices by ascending p-value, candidates `(m - i) * p` over the
sorted order, running maximum, clipping to [0, 1], scatter back to input
order — and in particular sends `[0.01, 0.01, 0.01]` to
`[0.03, 0.03, 0.03]`. -/
theorem holm_adjust_matches_spec :
    (∀ pvals : List ℚ, holm_adjust pvals = holm_spec pvals) ∧
    holm_adjust [1/100, 1/100, 1/100] = [3/100, 3/100, 3/100] := by
  constructor
  · intro pvals
    simp only [holm_adjust, holm_spec]
    rw [maxAccumulate_eq_runningMaxSpec, clip01_eq_clipSpec]
  · with_unfolding_all decide

/-- C7: for three groups with means A > B > C, p(A,B) = p(B,C) = 0.9,
p(A,C) = 0.01, alpha = 0.05 (groups A, B, C modelled by identifiers
1, 2, 3), `cld_letters` gives A and C disjoint letter sets; here
A = "a", B = "a", C = "b" (codes 97 and 98). -/
theorem cld_letters_intransitive_case :
    cld_letters [(1, 3), (2, 2), (3, 1)]
        [((1, 2), 9/10), ((2, 3), 9/10), ((1, 3), 1/100)] (1/20) =
      [(1, [97]), (2, [97]), (3, [98])] ∧
    (lettersOf (cld_letters [(1, 3), (2, 2), (3, 1)]
        [((1, 2), 9/10), ((2, 3), 9/10), ((1, 3), 1/100)] (1/20)) 1).inter
      (lettersOf (cld_letters [(1, 3), (2, 2), (3, 1)]
        [((1, 2), 9/10), ((2, 3), 9/10), ((1, 3), 1/100)] (1/20)) 3) = [] := by
  with_unfolding_all decide

/-- C5 counterexample: the method name "HOLM" is outside
{"holm", "bonferroni"}, yet `dunn_posthoc` does not fail with the
invalid-method error — the code lowercases the name before checking. -/
theorem dunn_method_case_insensitive_cex :
    ¬("HOLM" = "holm" ∨ "HOLM" = "bonferroni") ∧
    dunn_posthoc (fun _ => 1/2) (fun _ => 1) [(1, [1]), (2, [2])] "HOLM" =
      .ok [((1, 2), 1)] := by
  constructor
  · decide
  · with_unfolding_all rfl

/-- C5 amended: for a non-empty groups mapping, `dunn_posthoc` fails with
the invalid-method error exactly when the lowercased method name is
outside {"holm", "bonferroni"} (an empty mapping fails earlier, with the
concatenate error, regardless of the method). -/
theorem dunn_invalid_method_iff (sf sqrtF : ℚ → ℚ) (groups : List (ℚ × List ℚ))
    (method : String) (hne : groups ≠ []) :
    dunn_posthoc sf sqrtF groups method = .error .invalidMethod ↔
      (method.toLower ≠ "holm" ∧ method.toLower ≠ "bonferroni") := by
  unfold dunn_posthoc
  rw [if_neg (by simp [List.isEmpty_iff, hne])]
  by_cases h1 : method.toLower = "holm"
  · rw [if_pos h1]
    simp [h1]
  · rw [if_neg h1]
    by_cases h2 : method.toLower = "bonferroni"
    · rw [if_pos h2]
      simp [h1, h2]
    · rw [if_neg h2]
      simp [h1, h2]

theorem dunn_invalid_method_iff_witness :
    ([((1:ℚ), [(1:ℚ)])] ≠ ([] : List (ℚ × List ℚ))) ∧
    (dunn_posthoc (fun _ => 1/2) (fun _ => 1) [((1:ℚ), [(1:ℚ)])] "banana" =
        .error .invalidMethod ↔
      ("banana".toLower ≠ "holm" ∧ "banana".toLower ≠ "bonferroni")) :=
  ⟨by simp, dunn_invalid_method_iff (fun _ => 1/2) (fun _ => 1)
    [((1:ℚ), [(1:ℚ)])] "banana" (by simp)⟩

/-- C6 counterexample: with zero groups, `dunn_posthoc` does not return an
empty pairwise map — `np.concatenate([])` raises, so the call fails. -/
theorem dunn_empty_groups_raises :
    dunn_posthoc (fun _ => 1/2) (fun _ => 1) [] "holm" =
      .error .emptyConcatenate := rfl

theorem pooledLabels_cons (f : ℚ × List ℚ) (t : List (ℚ × List ℚ)) :
    pooledLabels (f :: t) = List.replicate f.2.length f.1 ++ pooledLabels t := rfl

theorem mem_pooledLabels {groups : List (ℚ × List ℚ)} {c : ℚ}
    (h : c ∈ pooledLabels groups) : c ∈ groups.map Prod.fst := by
  induction groups with
  | nil => simp [pooledLabels] at h
  | cons f t ih =>
    rw [pooledLabels_cons] at h
    rcases List.mem_append.mp h with h | h
    · rw [List.eq_of_mem_replicate h, List.map_cons]
      exact List.mem_cons_self _ _
    · rw [List.map_cons]
      exact List.mem_cons_of_mem _ (ih h)

theorem dunnSizes_eq_length {groups : List (ℚ × List ℚ)}
    (hnd : (groups.map Prod.fst).Nodup) {e : ℚ × List ℚ} (he : e ∈ groups) :
    dunnSizes groups e.1 = e.2.length := by
  induction groups with
  | nil => cases he
  | cons f t ih =>
    rw [List.map_cons, List.nodup_cons] at hnd
    rw [dunnSizes, pooledLabels_cons, List.count_append]
    rcases List.mem_cons.mp he with rfl | he'
    · rw [List.count_replicate_self]
      have h0 : (pooledLabels t).count e.1 = 0 :=
        List.count_eq_zero.mpr fun hm => hnd.1 (mem_pooledLabels hm)
      rw [h0]
      omega
    · have hne : e.1 ≠ f.1 := fun hEq =>
        hnd.1 (hEq ▸ List.mem_map_of_mem Prod.fst he')
      rw [List.count_replicate, if_neg (by simpa using Ne.symm hne)]
      have := ih hnd.2 he'
      rw [dunnSizes] at this
      rw [this]
      omega

theorem filter_allPairs {α : Type} (Q : α → Bool) (l : List α) :
    (allPairs l).filter (fun p => Q p.1 && Q p.2) = allPairs (l.filter Q) := by
  induction l with
  | nil => rfl
  | cons a t ih =>
    rw [allPairs, List.filter_append, ih, List.filter_map, List.filter_cons]
    by_cases hQ : Q a = true
    · rw [if_pos hQ, allPairs]
      refine congrArg₂ _ (congrArg _ ?_) rfl
      refine List.filter_congr fun b _ => ?_
      simp [Function.comp, hQ]
    · rw [if_neg hQ]
      have hQ' : Q a = false := Bool.eq_false_iff.mpr hQ
      have hz : t.filter ((fun p : α × α => Q p.1 && Q p.2) ∘ fun b => (a, b)) = [] := by
        refine List.filter_eq_nil_iff.mpr fun b _ => ?_
        simp [Function.comp, hQ']
      rw [hz, List.map_nil, List.nil_append]

theorem allPairs_length {α : Type} (l : List α) :
    (allPairs l).length = l.length.choose 2 := by
  induction l with
  | nil => rfl
  | cons a t ih =>
    rw [allPairs, List.length_append, List.length_map, ih, List.length_cons]
    have h := Nat.choose_succ_succ t.length 1
    rw [Nat.choose_one_right] at h
    rw [h]

theorem holm_adjust_length (l : List ℚ) : (holm_adjust l).length = l.length := by
  simp [holm_adjust, scatterBack]

theorem dunnPairs_eq (groups : List (ℚ × List ℚ))
    (hnd : (groups.map Prod.fst).Nodup) :
    dunnPairs groups = allPairs ((groups.filter fun e => !e.2.isEmpty).map Prod.fst) := by
  rw [dunnPairs]
  have h1 : (fun p : ℚ × ℚ =>
        !(decide (dunnSizes groups p.1 = 0) || decide (dunnSizes groups p.2 = 0)))
      = fun p : ℚ × ℚ =>
        (!decide (dunnSizes groups p.1 = 0)) && (!decide (dunnSizes groups p.2 = 0)) := by
    funext p
    rw [Bool.not_or]
  rw [h1, filter_allPairs (fun g : ℚ => !decide (dunnSizes groups g = 0))]
  refine congrArg _ ?_
  rw [List.filter_map]
  refine congrArg _ ?_
  refine List.filter_congr fun e he => ?_
  show (!decide (dunnSizes groups e.1 = 0)) = !e.2.isEmpty
  rw [dunnSizes_eq_length hnd he]
  cases h : e.2 with
  | nil => simp [h]
  | cons v vs => simp [h]

theorem allPairs_nil_of_short {α : Type} {l : List α} (h : l.length ≤ 1) :
    allPairs l = [] := by
  cases l with
  | nil => rfl
  | cons a t =>
    cases t with
    | nil => rfl
    | cons b u => simp at h

/-- C6 amended: for every NON-EMPTY groups mapping with distinct keys in
which fewer than 2 groups have non-empty value sequences, `dunn_posthoc`
with a supported adjustment method returns an empty pairwise map; with
zero groups it instead fails with the concatenate error. -/
theorem dunn_fewer_than_two_nonempty (sf sqrtF : ℚ → ℚ)
    (groups : List (ℚ × List ℚ)) (method : String)
    (hne : groups ≠ []) (hnd : (groups.map Prod.fst).Nodup)
    (hm : method.toLower = "holm" ∨ method.toLower = "bonferroni")
    (hk : (groups.filter fun e => !e.2.isEmpty).length < 2) :
    dunn_posthoc sf sqrtF groups method = .ok [] := by
  have hpairs : dunnPairs groups = [] := by
    rw [dunnPairs_eq groups hnd]
    refine allPairs_nil_of_short ?_
    rw [List.length_map]
    omega
  unfold dunn_posthoc
  rw [if_neg (by simp [List.isEmpty_iff, hne])]
  rcases hm with h | h
  · rw [if_pos h, hpairs]
    rfl
  · rw [if_neg (by rw [h]; decide), if_pos h, hpairs]
    rfl

theorem dunn_fewer_than_two_nonempty_witness :
    ([((1:ℚ), [(1:ℚ)])] ≠ ([] : List (ℚ × List ℚ))) ∧
    (([((1:ℚ), [(1:ℚ)])].map Prod.fst).Nodup) ∧
    ("holm".toLower = "holm" ∨ "holm".toLower = "bonferroni") ∧
    (([((1:ℚ), [(1:ℚ)])].filter fun e => !e.2.isEmpty).length < 2) ∧
    dunn_posthoc (fun _ => 1/2) (fun _ => 1) [((1:ℚ), [(1:ℚ)])] "holm" = .ok [] := by
  refine ⟨by simp, by simp, Or.inl (by with_unfolding_all rfl), by decide, ?_⟩
  exact dunn_fewer_than_two_nonempty (fun _ => 1/2) (fun _ => 1)
    [((1:ℚ), [(1:ℚ)])] "holm" (by simp) (by simp)
    (Or.inl (by with_unfolding_all rfl)) (by decide)

theorem mem_allPairs {α : Type} {l : List α} {p : α × α} (h : p ∈ allPairs l) :
    p.1 ∈ l ∧ p.2 ∈ l := by
  induction l with
  | nil => cases h
  | cons a t ih =>
    rw [allPairs] at h
    rcases List.mem_append.mp h with h | h
    · rcases List.mem_map.mp h with ⟨b, hb, rfl⟩
      exact ⟨List.mem_cons_self _ _, List.mem_cons_of_mem _ hb⟩
    · exact ⟨List.mem_cons_of_mem _ (ih h).1, List.mem_cons_of_mem _ (ih h).2⟩

theorem allPairs_ne {α : Type} {l : List α} (hnd : l.Nodup) {p : α × α}
    (h : p ∈ allPairs l) : p.1 ≠ p.2 := by
  induction l with
  | nil => cases h
  | cons a t ih =>
    rw [allPairs] at h
    rw [List.nodup_cons] at hnd
    rcases List.mem_append.mp h with h | h
    · rcases List.mem_map.mp h with ⟨c, hc, rfl⟩
      intro hEq
      exact hnd.1 (by rw [show a = c from hEq]; exact hc)
    · exact ih hnd.2 h

theorem allPairs_asymm {α : Type} {l : List α} (hnd : l.Nodup) {a b : α}
    (h : (a, b) ∈ allPairs l) : (b, a) ∉ allPairs l := by
  induction l with
  | nil => cases h
  | cons x t ih =>
    rw [List.nodup_cons] at hnd
    intro hba
    rw [allPairs] at h hba
    rcases List.mem_append.mp h with h1 | h1
    · rcases List.mem_map.mp h1 with ⟨c, hc, hEq⟩
      rw [Prod.mk.injEq] at hEq
      obtain ⟨rfl, rfl⟩ := hEq
      rcases List.mem_append.mp hba with h2 | h2
      · rcases List.mem_map.mp h2 with ⟨d, hd, hEq2⟩
        rw [Prod.mk.injEq] at hEq2
        obtain ⟨rfl, rfl⟩ := hEq2
        exact hnd.1 hc
      · exact hnd.1 (mem_allPairs h2).2
    · rcases List.mem_append.mp hba with h2 | h2
      · rcases List.mem_map.mp h2 with ⟨d, hd, hEq2⟩
        rw [Prod.mk.injEq] at hEq2
        obtain ⟨rfl, rfl⟩ := hEq2
        exact hnd.1 (mem_allPairs h1).2
      · exact ih hnd.2 h1 h2

theorem allPairs_nodup {α : Type} {l : List α} (hnd : l.Nodup) :
    (allPairs l).Nodup := by
  induction l with
  | nil => exact List.nodup_nil
  | cons a t ih =>
    rw [List.nodup_cons] at hnd
    rw [allPairs]
    refine List.Nodup.append ?_ (ih hnd.2) ?_
    · exact hnd.2.map fun h1 h2 hEq => congrArg Prod.snd hEq
    · intro p hp hp'
      rcases List.mem_map.mp hp with ⟨b, hb, rfl⟩
      exact hnd.1 (mem_allPairs hp').1

theorem canonPair_le (a b : ℚ) : (canonPair a b).1 ≤ (canonPair a b).2 := by
  unfold canonPair
  split
  · next h => exact le_of_lt h
  · next h => exact not_lt.mp h

theorem canonPair_lt {a b : ℚ} (h : a ≠ b) :
    (canonPair a b).1 < (canonPair a b).2 := by
  unfold canonPair
  split
  · next h1 => exact h1
  · next h1 => exact lt_of_le_of_ne (not_lt.mp h1) h

theorem canonPair_cases {a b c d : ℚ} (h : canonPair a b = canonPair c d) :
    (a = c ∧ b = d) ∨ (a = d ∧ b = c) := by
  unfold canonPair at h
  split at h <;> split at h <;>
    (rw [Prod.mk.injEq] at h) <;> tauto

theorem allPairs_canon_nodup {l : List ℚ} (hnd : l.Nodup) :
    ((allPairs l).map fun p => canonPair p.1 p.2).Nodup := by
  refine List.Nodup.map_on ?_ (allPairs_nodup hnd)
  intro p hp q hq hpq
  rcases canonPair_cases hpq with ⟨h1, h2⟩ | ⟨h1, h2⟩
  · exact Prod.ext h1 h2
  · exfalso
    have hq' : q = (p.2, p.1) := Prod.ext h2.symm h1.symm
    rw [hq'] at hq
    exact allPairs_asymm hnd (show (p.1, p.2) ∈ allPairs l from hp) hq

theorem dictInsert_fresh (d : List ((ℚ × ℚ) × ℚ)) (k : ℚ × ℚ) (v : ℚ)
    (h : ∀ f ∈ d, f.1 ≠ k) : dictInsert d k v = d ++ [(k, v)] := by
  unfold dictInsert
  have hc : (d.any fun e => decide (e.1 = k)) = false := by
    rw [List.any_eq_false]
    intro e he
    simpa using h e he
  rw [hc]
  simp

theorem dunnOut_fold (l : List ((ℚ × ℚ) × ℚ)) (acc : List ((ℚ × ℚ) × ℚ))
    (hnd : (l.map fun e => canonPair e.1.1 e.1.2).Nodup)
    (hfr : ∀ b ∈ l, ∀ f ∈ acc, f.1 ≠ canonPair b.1.1 b.1.2) :
    l.foldl (fun d e => dictInsert d (canonPair e.1.1 e.1.2) e.2) acc
      = acc ++ l.map fun e => (canonPair e.1.1 e.1.2, e.2) := by
  induction l generalizing acc with
  | nil => simp
  | cons e t ih =>
    rw [List.map_cons, List.nodup_cons] at hnd
    rw [List.foldl_cons,
      dictInsert_fresh _ _ _ fun f hf => hfr e (List.mem_cons_self _ _) f hf]
    rw [ih (acc ++ [(canonPair e.1.1 e.1.2, e.2)]) hnd.2 ?_]
    · simp
    · intro b hb f hf
      rcases List.mem_append.mp hf with hf | hf
      · exact hfr b (List.mem_cons_of_mem _ hb) f hf
      · rw [List.mem_singleton.mp hf]
        intro hEq
        refine hnd.1 ?_
        rw [show canonPair e.1.1 e.1.2 = canonPair b.1.1 b.1.2 from hEq]
        exact List.mem_map_of_mem _ hb

theorem dunnOut_eq (pairs : List (ℚ × ℚ)) (adj : List ℚ)
    (hnd : (((pairs.zip adj)).map fun e => canonPair e.1.1 e.1.2).Nodup) :
    dunnOut pairs adj = (pairs.zip adj).map fun e => (canonPair e.1.1 e.1.2, e.2) := by
  unfold dunnOut
  rw [dunnOut_fold (pairs.zip adj) [] hnd (by simp)]
  rw [List.nil_append]

theorem zip_map_canon (pairs : List (ℚ × ℚ)) (adj : List ℚ)
    (h : pairs.length ≤ adj.length) :
    ((pairs.zip adj).map fun e => canonPair e.1.1 e.1.2)
      = pairs.map fun p => canonPair p.1 p.2 := by
  have h1 : ((pairs.zip adj).map fun e => canonPair e.1.1 e.1.2)
      = ((pairs.zip adj).map Prod.fst).map fun p => canonPair p.1 p.2 := by
    rw [List.map_map]
    rfl
  rw [h1, List.map_fst_zip _ _ h]

/-- C3: for a groups mapping with distinct keys in which `k ≥ 2` groups
have non-empty value sequences, and a supported adjustment method,
`dunn_posthoc` returns a mapping with exactly `k * (k - 1) / 2` entries —
one per unordered pair of non-empty groups (keys pairwise distinct) —
each key sorted in ascending numeric order. -/
theorem dunn_pair_count (sf sqrtF : ℚ → ℚ) (groups : List (ℚ × List ℚ))
    (method : String) (hnd : (groups.map Prod.fst).Nodup)
    (hm : method.toLower = "holm" ∨ method.toLower = "bonferroni")
    (hk : 2 ≤ (groups.filter fun e => !e.2.isEmpty).length) :
    ∃ out, dunn_posthoc sf sqrtF groups method = .ok out ∧
      out.length = (groups.filter fun e => !e.2.isEmpty).length *
        ((groups.filter fun e => !e.2.isEmpty).length - 1) / 2 ∧
      (out.map Prod.fst).Nodup ∧
      ∀ e ∈ out, e.1.1 < e.1.2 := by
  have hksnd : ((groups.filter fun e => !e.2.isEmpty).map Prod.fst).Nodup :=
    List.Nodup.sublist (List.Sublist.map Prod.fst (List.filter_sublist groups)) hnd
  have hpairs := dunnPairs_eq groups hnd
  have hgne : groups ≠ [] := by
    intro hG
    rw [hG] at hk
    simp at hk
  have key : ∀ adj : List ℚ, adj.length = (dunnPairs groups).length →
      (dunnOut (dunnPairs groups) adj).length =
        (groups.filter fun e => !e.2.isEmpty).length *
          ((groups.filter fun e => !e.2.isEmpty).length - 1) / 2 ∧
      ((dunnOut (dunnPairs groups) adj).map Prod.fst).Nodup ∧
      ∀ e ∈ dunnOut (dunnPairs groups) adj, e.1.1 < e.1.2 := by
    intro adj hlen
    have hcanon : ((dunnPairs groups).map fun p => canonPair p.1 p.2).Nodup := by
      rw [hpairs]
      exact allPairs_canon_nodup hksnd
    have hzipkeys : (((dunnPairs groups).zip adj).map
        fun e => canonPair e.1.1 e.1.2).Nodup := by
      rw [zip_map_canon _ _ (le_of_eq hlen.symm)]
      exact hcanon
    have hout := dunnOut_eq _ adj hzipkeys
    refine ⟨?_, ?_, ?_⟩
    · rw [hout, List.length_map, List.length_zip, hlen, min_self, hpairs,
        allPairs_length, List.length_map, Nat.choose_two_right]
    · rw [hout, List.map_map]
      exact hzipkeys
    · intro e he
      rw [hout] at he
      rcases List.mem_map.mp he with ⟨w, hw, rfl⟩
      obtain ⟨w1, w2⟩ := w
      have hw1 : w1 ∈ dunnPairs groups := (List.of_mem_zip hw).1
      rw [hpairs] at hw1
      obtain ⟨a, b⟩ := w1
      exact canonPair_lt (allPairs_ne hksnd hw1)
  unfold dunn_posthoc
  rw [if_neg (by simp [List.isEmpty_iff, hgne])]
  rcases hm with h | h
  · rw [if_pos h]
    refine ⟨_, rfl, ?_⟩
    refine key _ ?_
    rw [holm_adjust_length, dunnRawP, List.length_map]
  · rw [if_neg (by rw [h]; decide), if_pos h]
    refine ⟨_, rfl, ?_⟩
    refine key _ ?_
    rw [List.length_map, dunnRawP, List.length_map]

theorem dunn_pair_count_witness :
    (([((1:ℚ), [(1:ℚ), 2]), ((2:ℚ), [(3:ℚ)]), ((3:ℚ), [(4:ℚ)])].map Prod.fst).Nodup) ∧
    ("holm".toLower = "holm" ∨ "holm".toLower = "bonferroni") ∧
    2 ≤ ([((1:ℚ), [(1:ℚ), 2]), ((2:ℚ), [(3:ℚ)]), ((3:ℚ), [(4:ℚ)])].filter
      fun e => !e.2.isEmpty).length ∧
    ∃ out, dunn_posthoc (fun _ => 1/2) (fun _ => 1)
        [((1:ℚ), [(1:ℚ), 2]), ((2:ℚ), [(3:ℚ)]), ((3:ℚ), [(4:ℚ)])] "holm" = .ok out ∧
      out.length = ([((1:ℚ), [(1:ℚ), 2]), ((2:ℚ), [(3:ℚ)]), ((3:ℚ), [(4:ℚ)])].filter
          fun e => !e.2.isEmpty).length *
        (([((1:ℚ), [(1:ℚ), 2]), ((2:ℚ), [(3:ℚ)]), ((3:ℚ), [(4:ℚ)])].filter
          fun e => !e.2.isEmpty).length - 1) / 2 ∧
      (out.map Prod.fst).Nodup ∧
      ∀ e ∈ out, e.1.1 < e.1.2 := by
  refine ⟨by with_unfolding_all decide, Or.inl (by with_unfolding_all rfl),
    by decide, ?_⟩
  exact dunn_pair_count (fun _ => 1/2) (fun _ => 1)
    [((1:ℚ), [(1:ℚ), 2]), ((2:ℚ), [(3:ℚ)]), ((3:ℚ), [(4:ℚ)])] "holm"
    (by with_unfolding_all decide) (Or.inl (by with_unfolding_all rfl)) (by decide)

/-- C4: `dunn_posthoc` over two groups with identical values
`[1, 2, 3]` (groups "A" and "B" modelled by the numeric identifiers 1
and 2) yields the p-value 1 for their pair, for both the "holm" and the
"bonferroni" adjustment; the only property used of the normal survival
function is `sf 0 = 1/2`, so the raw two-sided p-value of the zero
z-statistic is exactly 1. -/
theorem dunn_identical_groups (sf sqrtF : ℚ → ℚ) (hsf : sf 0 = 1/2) :
    dunn_posthoc sf sqrtF [(1, [1, 2, 3]), (2, [1, 2, 3])] "holm" =
      .ok [((1, 2), 1)] ∧
    dunn_posthoc sf sqrtF [(1, [1, 2, 3]), (2, [1, 2, 3])] "bonferroni" =
      .ok [((1, 2), 1)] := by
  have hpairs : dunnPairs [((1:ℚ), [(1:ℚ), 2, 3]), ((2:ℚ), [(1:ℚ), 2, 3])]
      = [(1, 2)] := by
    with_unfolding_all decide
  have hnum : dunnRankSums [((1:ℚ), [(1:ℚ), 2, 3]), ((2:ℚ), [(1:ℚ), 2, 3])] 1 /
        (dunnSizes [((1:ℚ), [(1:ℚ), 2, 3]), ((2:ℚ), [(1:ℚ), 2, 3])] 1 : ℚ) -
      dunnRankSums [((1:ℚ), [(1:ℚ), 2, 3]), ((2:ℚ), [(1:ℚ), 2, 3])] 2 /
        (dunnSizes [((1:ℚ), [(1:ℚ), 2, 3]), ((2:ℚ), [(1:ℚ), 2, 3])] 2 : ℚ) = 0 := by
    with_unfolding_all decide
  have hraw : dunnRawP sf sqrtF [((1:ℚ), [(1:ℚ), 2, 3]), ((2:ℚ), [(1:ℚ), 2, 3])]
      = [1] := by
    rw [dunnRawP, hpairs]
    simp only [List.map_cons, List.map_nil]
    rw [hnum, zero_div, abs_zero, hsf]
    norm_num
  constructor
  · unfold dunn_posthoc
    rw [if_neg (by simp)]
    rw [if_pos (show ("holm").toLower = "holm" from by with_unfolding_all rfl)]
    rw [hraw, hpairs]
    exact congrArg Except.ok (by with_unfolding_all decide)
  · unfold dunn_posthoc
    rw [if_neg (by simp)]
    rw [if_neg (show ¬("bonferroni").toLower = "holm" from by
      with_unfolding_all decide)]
    rw [if_pos (show ("bonferroni").toLower = "bonferroni" from by
      with_unfolding_all rfl)]
    rw [hraw, hpairs]
    exact congrArg Except.ok (by with_unfolding_all decide)

theorem dunn_identical_groups_witness :
    ((fun _ : ℚ => (1:ℚ)/2) 0 = 1/2) ∧
    (dunn_posthoc (fun _ => 1/2) (fun _ => 1) [(1, [1, 2, 3]), (2, [1, 2, 3])] "holm" =
      .ok [((1, 2), 1)] ∧
    dunn_posthoc (fun _ => 1/2) (fun _ => 1) [(1, [1, 2, 3]), (2, [1, 2, 3])]
        "bonferroni" = .ok [((1, 2), 1)]) :=
  ⟨rfl, dunn_identical_groups (fun _ => 1/2) (fun _ => 1) rfl⟩

theorem tryJoin_other (gs : List ℚ) (ns : ℚ → ℚ → Bool) (g : ℚ) (ll : List ℕ)
    (lt : ℚ → List ℕ) {h : ℚ} (hne : h ≠ g) :
    (tryJoin gs ns g lt ll).1 h = lt h := by
  induction ll generalizing lt with
  | nil => rfl
  | cons L rest ih =>
    rw [tryJoin]
    split
    · rw [show (((tryJoin gs ns g
          (fun h' => if h' = g then lt h' ++ [L] else lt h') rest).1, true)).1
        = (tryJoin gs ns g
          (fun h' => if h' = g then lt h' ++ [L] else lt h') rest).1 from rfl]
      rw [ih]
      exact if_neg hne
    · exact ih lt

theorem tryJoin_self (gs : List ℚ) (ns : ℚ → ℚ → Bool) (g : ℚ) (ll : List ℕ)
    (lt : ℚ → List ℕ) :
    ∃ s, (tryJoin gs ns g lt ll).1 g = lt g ++ s ∧
      ((tryJoin gs ns g lt ll).2 = true → s ≠ []) := by
  induction ll generalizing lt with
  | nil =>
    refine ⟨[], by rw [tryJoin]; simp, ?_⟩
    rw [tryJoin]
    intro hcon
    simp at hcon
  | cons L rest ih =>
    rw [tryJoin]
    split
    · obtain ⟨s, hs1, _⟩ := ih fun h' => if h' = g then lt h' ++ [L] else lt h'
      refine ⟨L :: s, ?_, fun _ => by simp⟩
      show (tryJoin gs ns g (fun h' => if h' = g then lt h' ++ [L] else lt h') rest).1 g
        = lt g ++ (L :: s)
      rw [hs1, if_pos rfl]
      simp
    · exact ih lt

theorem processGroup_other (gs : List ℚ) (ns : ℚ → ℚ → Bool) (st : CLD) (g : ℚ)
    {h : ℚ} (hne : h ≠ g) :
    (processGroup gs ns st g).letters h = st.letters h := by
  simp only [processGroup]
  split
  · exact tryJoin_other gs ns g st.letterList st.letters hne
  · show (if h = g then _ ++ _ else (tryJoin gs ns g st.letters st.letterList).1 h)
      = st.letters h
    rw [if_neg hne]
    exact tryJoin_other gs ns g st.letterList st.letters hne

theorem processGroup_self_sub (gs : List ℚ) (ns : ℚ → ℚ → Bool) (st : CLD) (g : ℚ) :
    ∃ s, (processGroup gs ns st g).letters g = st.letters g ++ s ∧ s ≠ [] := by
  simp only [processGroup]
  obtain ⟨s, hs, hplaced⟩ := tryJoin_self gs ns g st.letterList st.letters
  split
  · next hpl => exact ⟨s, hs, hplaced hpl⟩
  · next hpl =>
    refine ⟨s ++ [97 + st.letterList.length], ?_, by simp⟩
    show (if g = g then _ else _) = _
    rw [if_pos rfl, hs, List.append_assoc]

theorem foldl_processGroup_sub (gs : List ℚ) (ns : ℚ → ℚ → Bool) (l : List ℚ)
    (st : CLD) (h : ℚ) :
    ∃ s, (l.foldl (processGroup gs ns) st).letters h = st.letters h ++ s := by
  induction l generalizing st with
  | nil => exact ⟨[], by simp⟩
  | cons a t ih =>
    rw [List.foldl_cons]
    obtain ⟨s1, hs1⟩ := ih (processGroup gs ns st a)
    by_cases hag : h = a
    · subst hag
      obtain ⟨s0, hs0, _⟩ := processGroup_self_sub gs ns st h
      exact ⟨s0 ++ s1, by rw [hs1, hs0, List.append_assoc]⟩
    · exact ⟨s1, by rw [hs1, processGroup_other gs ns st a hag]⟩

theorem foldl_processGroup_mem (gs : List ℚ) (ns : ℚ → ℚ → Bool) (l : List ℚ) :
    ∀ (st : CLD) {g : ℚ}, g ∈ l →
      (l.foldl (processGroup gs ns) st).letters g ≠ [] := by
  induction l with
  | nil =>
    intro st g hg
    cases hg
  | cons a t ih =>
    intro st g hg
    rw [List.foldl_cons]
    rcases List.mem_cons.mp hg with rfl | hgt
    · obtain ⟨s1, hs1⟩ := foldl_processGroup_sub gs ns t (processGroup gs ns st g) g
      obtain ⟨s0, hs0, hne0⟩ := processGroup_self_sub gs ns st g
      rw [hs1, hs0]
      intro hemp
      rcases List.append_eq_nil.mp hemp with ⟨h1, _⟩
      rcases List.append_eq_nil.mp h1 with ⟨_, h2⟩
      exact hne0 h2
    · exact ih _ hgt

theorem insertDescMean_perm (ms : ℚ → ℚ) (g : ℚ) (l : List ℚ) :
    (insertDescMean ms g l).Perm (g :: l) := by
  induction l with
  | nil => exact List.Perm.refl _
  | cons h t ih =>
    rw [insertDescMean]
    split
    · exact List.Perm.refl _
    · exact (ih.cons h).trans (List.Perm.swap g h t)

theorem sortGroupsDesc_perm (ms : ℚ → ℚ) (l : List ℚ) :
    (sortGroupsDesc ms l).Perm l := by
  induction l with
  | nil => exact List.Perm.refl _
  | cons g t ih =>
    rw [sortGroupsDesc]
    exact (insertDescMean_perm ms g _).trans (ih.cons g)

/-- C9: every key of `group_means` appears as a key of the mapping
returned by `cld_letters` (the result keys are a permutation of the input
keys), and every group's letter string is non-empty. -/
theorem cld_letters_total (means : List (ℚ × ℚ)) (pvals : List ((ℚ × ℚ) × ℚ))
    (alpha : ℚ) :
    ((cld_letters means pvals alpha).map Prod.fst).Perm (means.map Prod.fst) ∧
    ∀ e ∈ cld_letters means pvals alpha, e.2 ≠ [] := by
  rw [cld_letters_eq_greedy]
  simp only [cld_letters_greedy]
  constructor
  · rw [List.map_map]
    have hcomp : (Prod.fst ∘ fun g : ℚ =>
        (g, (List.foldl (processGroup (sortGroupsDesc (meansOf means) (means.map Prod.fst))
          (nonsigB pvals alpha)) ⟨fun _ => [], []⟩
          (sortGroupsDesc (meansOf means) (means.map Prod.fst))).letters g))
        = fun g : ℚ => g := funext fun g => rfl
    rw [hcomp, List.map_id']
    exact sortGroupsDesc_perm _ _
  · intro e he
    rcases List.mem_map.mp he with ⟨g, hgmem, rfl⟩
    exact foldl_processGroup_mem _ _ _ _ hgmem

theorem canonPair_symm (a b : ℚ) : canonPair a b = canonPair b a := by
  unfold canonPair
  rcases lt_trichotomy a b with h | h | h
  · rw [if_neg (asymm h), if_pos h]
  · subst h
    rfl
  · rw [if_pos h, if_neg (asymm h)]

theorem lookupP_symm (pvals : List ((ℚ × ℚ) × ℚ)) (a b : ℚ) :
    lookupP pvals a b = lookupP pvals b a := by
  unfold lookupP
  rw [canonPair_symm]

theorem nonsigB_symm (pvals : List ((ℚ × ℚ) × ℚ)) (alpha : ℚ) (a b : ℚ) :
    nonsigB pvals alpha a b = nonsigB pvals alpha b a := by
  unfold nonsigB
  rw [lookupP_symm]

theorem CLDInv_mk {gs : List ℚ} {ns : ℚ → ℚ → Bool} {lt : ℚ → List ℕ}
    {LL : List ℕ} (h1 : ∀ h, lt h ≠ [] → h ∈ gs)
    (h2 : ∀ h c, c ∈ lt h → c ∈ LL)
    (h3 : LL = (List.range LL.length).map fun i => 97 + i)
    (h4 : ∀ a b, a ≠ b → (∃ c, c ∈ lt a ∧ c ∈ lt b) → ns a b = true) :
    CLDInv gs ns ⟨lt, LL⟩ := ⟨h1, h2, h3, h4⟩

theorem CLDInv_unpack {gs : List ℚ} {ns : ℚ → ℚ → Bool} {lt : ℚ → List ℕ}
    {LL : List ℕ} (h : CLDInv gs ns ⟨lt, LL⟩) :
    (∀ h', lt h' ≠ [] → h' ∈ gs) ∧ (∀ h' c, c ∈ lt h' → c ∈ LL) ∧
    (LL = (List.range LL.length).map fun i => 97 + i) ∧
    (∀ a b, a ≠ b → (∃ c, c ∈ lt a ∧ c ∈ lt b) → ns a b = true) := h

theorem tryJoin_inv (gs : List ℚ) (ns : ℚ → ℚ → Bool) (g : ℚ) (hg : g ∈ gs)
    (hsym : ∀ a b, ns a b = ns b a) (LL : List ℕ) (ll : List ℕ) :
    ∀ lt : ℚ → List ℕ, (∀ L ∈ ll, L ∈ LL) →
      CLDInv gs ns ⟨lt, LL⟩ → CLDInv gs ns ⟨(tryJoin gs ns g lt ll).1, LL⟩ := by
  induction ll with
  | nil =>
    intro lt _ hinv
    exact hinv
  | cons L rest ih =>
    intro lt hsub hinv
    rw [tryJoin]
    split
    · next hall =>
      refine ih _ (fun L' hL' => hsub L' (List.mem_cons_of_mem _ hL')) ?_
      obtain ⟨i1, i2, i3, i4⟩ := CLDInv_unpack hinv
      refine CLDInv_mk ?_ ?_ i3 ?_
      · intro h hne
        by_cases hhg : h = g
        · subst hhg
          exact hg
        · rw [if_neg hhg] at hne
          exact i1 _ hne
      · intro h c hc
        by_cases hhg : h = g
        · subst hhg
          rw [if_pos rfl] at hc
          rcases List.mem_append.mp hc with hc | hc
          · exact i2 _ _ hc
          · rw [List.mem_singleton.mp hc]
            exact hsub L (List.mem_cons_self _ _)
        · rw [if_neg hhg] at hc
          exact i2 _ _ hc
      · intro a b hab hshared
        obtain ⟨c, hca, hcb⟩ := hshared
        by_cases hag : a = g <;> by_cases hbg : b = g
        · rw [hag, hbg] at hab
          exact absurd rfl hab
        · subst hag
          rw [if_pos rfl] at hca
          rw [if_neg hbg] at hcb
          rcases List.mem_append.mp hca with hca | hca
          · exact i4 _ _ hab ⟨c, hca, hcb⟩
          · rw [List.mem_singleton.mp hca] at hcb
            have hbgs : b ∈ gs := i1 b (List.ne_nil_of_mem hcb)
            have hbmem : b ∈ gs.filter fun h => decide (L ∈ lt h) :=
              List.mem_filter.mpr ⟨hbgs, by simpa using hcb⟩
            exact List.all_eq_true.mp hall _ hbmem
        · subst hbg
          rw [if_pos rfl] at hcb
          rw [if_neg hag] at hca
          rcases List.mem_append.mp hcb with hcb | hcb
          · exact i4 _ _ hab ⟨c, hca, hcb⟩
          · rw [List.mem_singleton.mp hcb] at hca
            have hags : a ∈ gs := i1 a (List.ne_nil_of_mem hca)
            have hamem : a ∈ gs.filter fun h => decide (L ∈ lt h) :=
              List.mem_filter.mpr ⟨hags, by simpa using hca⟩
            rw [hsym a b]
            exact List.all_eq_true.mp hall _ hamem
        · rw [if_neg hag] at hca
          rw [if_neg hbg] at hcb
          exact i4 _ _ hab ⟨c, hca, hcb⟩
    · exact ih _ (fun L' hL' => hsub L' (List.mem_cons_of_mem _ hL')) hinv

theorem processGroup_inv (gs : List ℚ) (ns : ℚ → ℚ → Bool) {g : ℚ} (hg : g ∈ gs)
    (hsym : ∀ a b, ns a b = ns b a) (st : CLD) (hinv : CLDInv gs ns st) :
    CLDInv gs ns (processGroup gs ns st g) := by
  obtain ⟨lt, LL⟩ := st
  simp only [processGroup]
  have htj := tryJoin_inv gs ns g hg hsym LL LL lt (fun _ hL => hL) hinv
  split
  · exact htj
  · obtain ⟨i1, i2, i3, i4⟩ := CLDInv_unpack htj
    have hfresh : (97 + LL.length) ∉ LL := by
      intro hmem
      nth_rewrite 1 [i3] at hmem
      rcases List.mem_map.mp hmem with ⟨i, hi, hieq⟩
      rw [List.mem_range] at hi
      omega
    refine CLDInv_mk ?_ ?_ ?_ ?_
    · intro h hne
      by_cases hhg : h = g
      · subst hhg
        exact hg
      · rw [if_neg hhg] at hne
        exact i1 _ hne
    · intro h c hc
      by_cases hhg : h = g
      · subst hhg
        rw [if_pos rfl] at hc
        rcases List.mem_append.mp hc with hc | hc
        · exact List.mem_append.mpr (Or.inl (i2 _ _ hc))
        · rw [List.mem_singleton.mp hc]
          exact List.mem_append.mpr (Or.inr (List.mem_singleton.mpr rfl))
      · rw [if_neg hhg] at hc
        exact List.mem_append.mpr (Or.inl (i2 _ _ hc))
    · rw [List.length_append, List.length_singleton, List.range_succ, List.map_append]
      rw [← i3]
      rfl
    · intro a b hab hshared
      obtain ⟨c, hca, hcb⟩ := hshared
      by_cases hag : a = g <;> by_cases hbg : b = g
      · rw [hag, hbg] at hab
        exact absurd rfl hab
      · subst hag
        rw [if_pos rfl] at hca
        rw [if_neg hbg] at hcb
        rcases List.mem_append.mp hca with hca | hca
        · exact i4 _ _ hab ⟨c, hca, hcb⟩
        · rw [List.mem_singleton.mp hca] at hcb
          exact absurd (i2 _ _ hcb) hfresh
      · subst hbg
        rw [if_pos rfl] at hcb
        rw [if_neg hag] at hca
        rcases List.mem_append.mp hcb with hcb | hcb
        · exact i4 _ _ hab ⟨c, hca, hcb⟩
        · rw [List.mem_singleton.mp hcb] at hca
          exact absurd (i2 _ _ hca) hfresh
      · rw [if_neg hag] at hca
        rw [if_neg hbg] at hcb
        exact i4 _ _ hab ⟨c, hca, hcb⟩

theorem foldl_processGroup_inv (gs : List ℚ) (ns : ℚ → ℚ → Bool)
    (hsym : ∀ a b, ns a b = ns b a) (l : List ℚ) :
    (∀ g ∈ l, g ∈ gs) → ∀ st : CLD, CLDInv gs ns st →
      CLDInv gs ns (l.foldl (processGroup gs ns) st) := by
  induction l with
  | nil =>
    intro _ st h
    exact h
  | cons a t ih =>
    intro hsub st h
    rw [List.foldl_cons]
    exact ih (fun g hgt => hsub g (List.mem_cons_of_mem _ hgt)) _
      (processGroup_inv gs ns (hsub a (List.mem_cons_self _ _)) hsym st h)

theorem CLDInv_init (gs : List ℚ) (ns : ℚ → ℚ → Bool) :
    CLDInv gs ns ⟨fun _ => [], []⟩ :=
  CLDInv_mk (fun _ hne => absurd rfl hne)
    (fun _ c hc => absurd hc (List.not_mem_nil c))
    rfl
    (fun _ _ _ hsh => absurd hsh.choose_spec.1 (List.not_mem_nil hsh.choose))

/-- C1: any two distinct groups whose `cld_letters` strings share a letter
have a stored pairwise p-value of at least `alpha` (a pair absent from the
p-value mapping defaults to 1, hence non-significant). -/
theorem cld_shared_letter_nonsig (means : List (ℚ × ℚ))
    (pvals : List ((ℚ × ℚ) × ℚ)) (alpha : ℚ) {g h : ℚ} {sg sh : List ℕ}
    (hne : g ≠ h) (hg : (g, sg) ∈ cld_letters means pvals alpha)
    (hh : (h, sh) ∈ cld_letters means pvals alpha)
    {c : ℕ} (hcg : c ∈ sg) (hch : c ∈ sh) :
    alpha ≤ lookupP pvals g h := by
  rw [cld_letters_eq_greedy] at hg hh
  simp only [cld_letters_greedy] at hg hh
  rcases List.mem_map.mp hg with ⟨g', _, hEqg⟩
  rcases List.mem_map.mp hh with ⟨h', _, hEqh⟩
  rw [Prod.mk.injEq] at hEqg hEqh
  obtain ⟨rfl, rfl⟩ := hEqg
  obtain ⟨rfl, rfl⟩ := hEqh
  have hinv := foldl_processGroup_inv
    (sortGroupsDesc (meansOf means) (means.map Prod.fst)) (nonsigB pvals alpha)
    (nonsigB_symm pvals alpha)
    (sortGroupsDesc (meansOf means) (means.map Prod.fst)) (fun _ hgg => hgg)
    ⟨fun _ => [], []⟩ (CLDInv_init _ _)
  have hns := hinv.2.2.2 g' h' hne ⟨c, hcg, hch⟩
  exact of_decide_eq_true hns

theorem cld_shared_letter_nonsig_witness :
    ((1:ℚ) ≠ 2) ∧
    (((1:ℚ), [97]) ∈ cld_letters [(1, 2), (2, 1)] [] (1/20)) ∧
    (((2:ℚ), [97]) ∈ cld_letters [(1, 2), (2, 1)] [] (1/20)) ∧
    ((97:ℕ) ∈ [(97:ℕ)]) ∧ (1/20 : ℚ) ≤ lookupP [] 1 2 := by
  have hne : (1:ℚ) ≠ 2 := by norm_num
  have h1 : ((1:ℚ), [97]) ∈ cld_letters [(1, 2), (2, 1)] [] (1/20) := by
    with_unfolding_all decide
  have h2 : ((2:ℚ), [97]) ∈ cld_letters [(1, 2), (2, 1)] [] (1/20) := by
    with_unfolding_all decide
  have hmem : (97:ℕ) ∈ [(97:ℕ)] := by decide
  exact ⟨hne, h1, h2, hmem,
    @cld_shared_letter_nonsig [(1, 2), (2, 1)] [] (1/20) 1 2 [97] [97]
      hne h1 h2 97 hmem hmem⟩

theorem cld_letters_total_witness :
    (((cld_letters [(1, 2), (2, 1)] [] (1/20)).map Prod.fst).Perm
      (([((1:ℚ), (2:ℚ)), (2, 1)]).map Prod.fst)) ∧
    (((1:ℚ), [(97:ℕ)]) ∈ cld_letters [(1, 2), (2, 1)] [] (1/20)) ∧
    ([(97:ℕ)] ≠ []) := by
  have hm : ((1:ℚ), [(97:ℕ)]) ∈ cld_letters [(1, 2), (2, 1)] [] (1/20) := by
    with_unfolding_all decide
  exact ⟨(cld_letters_total [(1, 2), (2, 1)] [] (1/20)).1, hm,
    (cld_letters_total [(1, 2), (2, 1)] [] (1/20)).2 _ hm⟩
